import Mathlib

/-!
Shallow embedding of the rating/ranking aggregation engine of the NBABrain
repository (src/services/teamDataLoader.ts, src/services/data.ts, the
TeamDetail component and the player category rating helper), together with
proofs about the embedded definitions.

Modelling conventions:
* JavaScript numbers are modelled by `ℚ`; a value that is `undefined`,
  `null` or non-finite (`NaN`, `±Infinity`) is modelled by `Option.none`
  (the code only ever inspects such values through finiteness checks, so
  the distinction between the different unusable values is unobservable).
* Calendar dates are modelled by integers (the parsed timestamp, at day
  granularity); the code compares dates only through
  `new Date(s).getTime()` order comparisons and whole-day offsets.
* `Math.round` is JavaScript round-half-up, `⌊x + 1/2⌋`.
* JavaScript `Array.prototype.sort` is a stable sort; it is modelled by
  `List.insertionSort`, which is stable for the same comparator preorder.
-/

namespace NBABrain

/-- JavaScript `Math.round`: rounds half toward positive infinity. -/
def jsRound (q : ℚ) : ℤ := ⌊q + 1 / 2⌋

/-- A raw dynamically-typed value (`unknown` in teamDataLoader.ts), as far
as `asNumber` can observe it: a finite number, a non-finite number, a
string (recorded together with the finite value `Number(s)` yields, if
any), or anything else (undefined, null, objects, ...). -/
inductive RawValue where
  | num (q : ℚ)
  | nanNum
  | str (parsed : Option ℚ)
  | missing
deriving DecidableEq, Repr

/-- teamDataLoader.ts `asNumber`: finite numbers pass through; strings are
coerced with `Number` and kept only when finite; everything else is
`undefined`. -/
def asNumber : RawValue → Option ℚ
  | .num q => some q
  | .nanNum => none
  | .str parsed => parsed
  | .missing => none

/-- teamDataLoader.ts `roundNumber`: `asNumber` then `Math.round`, or
`undefined`. -/
def roundNumber (v : RawValue) : Option ℤ :=
  match asNumber v with
  | none => none
  | some q => some (jsRound q)

/-- types.ts `EloHistoryPoint` (date parsed to an integer timestamp). -/
structure EloHistoryPoint where
  date : ℤ
  elo : ℚ
deriving DecidableEq, Repr

/-- types.ts `GameHistory`, restricted to the fields the rating-window
engine reads (`date`, `eloChange`); `date` is optional in the source. -/
structure GameHistory where
  eloChange : ℚ
  date : Option ℤ
deriving DecidableEq, Repr

/-- Sort key used by `computeEloChangeLastN`: `new Date(g.date || 0)`. -/
def gameDateKey (g : GameHistory) : ℤ := g.date.getD 0

/-- The stable descending-by-date sort
`[...games].sort((a, b) => new Date(b.date || 0) - new Date(a.date || 0))`
inside `computeEloChangeLastN`. -/
def sortGamesByDateDesc (games : List GameHistory) : List GameHistory :=
  games.insertionSort (fun a b => gameDateKey b ≤ gameDateKey a)

/-- teamDataLoader.ts `computeEloChangeLastN`: with a non-empty game log,
sort descending by date, take the first `n`, sum `eloChange` and round;
otherwise fall back to the dated history series. -/
def computeEloChangeLastN (history : List EloHistoryPoint)
    (games : List GameHistory) (n : ℕ) : ℤ :=
  if 0 < games.length then
    jsRound (((sortGamesByDateDesc games).take n).foldl
      (fun acc g => acc + g.eloChange) 0)
  else if history.length = 0 then 0
  else if history.length ≤ n then
    jsRound ((((history.get? (history.length - 1)).map (·.elo)).getD 0)
      - (((history.get? 0).map (·.elo)).getD 0))
  else
    let fromIdx := history.length - n - 1
    let startElo := (((history.get? fromIdx).map (·.elo))).getD
      ((((history.get? 0).map (·.elo))).getD 0)
    let endElo := (((history.get? (history.length - 1)).map (·.elo))).getD 0
    jsRound (endElo - startElo)

/-- types.ts `TeamRecord`. The `raw` field keeps the raw record string
(as a list of characters). -/
structure TeamRecord where
  wins : ℕ
  losses : ℕ
  conferenceRank : ℚ
  seed : Option ℚ
  raw : Option (List Char)
deriving DecidableEq, Repr

/-- Value of a run of decimal digits, as JavaScript `Number` computes it
for the captured group of `(\d+)`. -/
def digitsVal (l : List Char) : ℕ :=
  l.foldl (fun acc c => 10 * acc + (c.toNat - 48)) 0

/-- Split a maximal leading run of decimal digits off a character list;
fails when the list does not start with a digit.  This is the behaviour
of a greedy `(\d+)` at a fixed position (backtracking into the run can
never help this pattern, because the character following a shortened run
is a digit, which neither `\s*` nor the literal `-` can match). -/
def takeDigits (l : List Char) : Option (ℕ × List Char) :=
  let run := l.takeWhile Char.isDigit
  if run.isEmpty then none else some (digitsVal run, l.dropWhile Char.isDigit)

/-- Attempt to match the regular expression `(\d+)\s*-\s*(\d+)` anchored
at the start of the list, returning the two captured integers. -/
def matchTwoIntsAt (l : List Char) : Option (ℕ × ℕ) :=
  match takeDigits l with
  | none => none
  | some (w, rest) =>
    match rest.dropWhile Char.isWhitespace with
    | [] => none
    | c :: rest' =>
      if c = '-' then
        match takeDigits (rest'.dropWhile Char.isWhitespace) with
        | none => none
        | some (v, _) => some (w, v)
      else none

/-- JavaScript `raw.match(/(\d+)\s*-\s*(\d+)/)`: the leftmost position at
which the pattern matches, with greedy digit runs. -/
def findTwoInts : List Char → Option (ℕ × ℕ)
  | [] => none
  | c :: rest =>
    match matchTwoIntsAt (c :: rest) with
    | some p => some p
    | none => findTwoInts rest

/-- JavaScript truthiness of the optional record string: `undefined` and
the empty string are falsy. -/
def rawFalsy : Option (List Char) → Bool
  | none => true
  | some [] => true
  | some (_ :: _) => false

/-- JavaScript truthiness of the optional numeric seed: `undefined` and
`0` are falsy. -/
def seedTruthy : Option ℚ → Bool
  | none => false
  | some s => decide (s ≠ 0)

/-- teamDataLoader.ts `parseRecord`. -/
def parseRecord (raw : Option (List Char)) (seed : Option ℚ) :
    Option TeamRecord :=
  if rawFalsy raw then
    if seedTruthy seed then
      some ⟨0, 0, seed.getD 0, seed, raw⟩
    else none
  else
    match raw with
    | none => none
    | some chars =>
      match findTwoInts chars with
      | some (w, l) =>
        some ⟨w, l, seed.getD 0, seed, some chars⟩
      | none =>
        if seedTruthy seed then
          some ⟨0, 0, seed.getD 0, seed, some chars⟩
        else none

/-- Raw team statistics (`RawTeamStats` in teamDataLoader.ts): eighteen
possibly-unusable numeric fields. -/
structure RawTeamStats where
  offRating : RawValue
  offRatingRank : RawValue
  defRating : RawValue
  defRatingRank : RawValue
  netRating : RawValue
  netRatingRank : RawValue
  threesPerGame : RawValue
  threesPerGameRank : RawValue
  turnoversPerGame : RawValue
  turnoversPerGameRank : RawValue
  plusMinus : RawValue
  plusMinusRank : RawValue
  fgPct : RawValue
  fgPctRank : RawValue
  ftPct : RawValue
  ftPctRank : RawValue
  fg3Pct : RawValue
  fg3PctRank : RawValue
deriving DecidableEq, Repr

/-- types.ts `TeamStats`: all fields unconditionally numeric. -/
structure TeamStats where
  offRating : ℚ
  offRatingRank : ℤ
  defRating : ℚ
  defRatingRank : ℤ
  netRating : ℚ
  netRatingRank : ℤ
  threesPerGame : ℚ
  threesPerGameRank : ℤ
  turnoversPerGame : ℚ
  turnoversPerGameRank : ℤ
  plusMinus : ℚ
  plusMinusRank : ℤ
  fgPct : ℚ
  fgPctRank : ℤ
  ftPct : ℚ
  ftPctRank : ℤ
  fg3Pct : ℚ
  fg3PctRank : ℤ
deriving DecidableEq, Repr

/-- teamDataLoader.ts `mapTeamStats`: absent stats stay absent, but each
present record has every missing or unusable field defaulted to `0`
through `?? 0`. -/
def mapTeamStats : Option RawTeamStats → Option TeamStats
  | none => none
  | some s => some
    { offRating := (asNumber s.offRating).getD 0
      offRatingRank := (roundNumber s.offRatingRank).getD 0
      defRating := (asNumber s.defRating).getD 0
      defRatingRank := (roundNumber s.defRatingRank).getD 0
      netRating := (asNumber s.netRating).getD 0
      netRatingRank := (roundNumber s.netRatingRank).getD 0
      threesPerGame := (asNumber s.threesPerGame).getD 0
      threesPerGameRank := (roundNumber s.threesPerGameRank).getD 0
      turnoversPerGame := (asNumber s.turnoversPerGame).getD 0
      turnoversPerGameRank := (roundNumber s.turnoversPerGameRank).getD 0
      plusMinus := (asNumber s.plusMinus).getD 0
      plusMinusRank := (roundNumber s.plusMinusRank).getD 0
      fgPct := (asNumber s.fgPct).getD 0
      fgPctRank := (roundNumber s.fgPctRank).getD 0
      ftPct := (asNumber s.ftPct).getD 0
      ftPctRank := (roundNumber s.ftPctRank).getD 0
      fg3Pct := (asNumber s.fg3Pct).getD 0
      fg3PctRank := (roundNumber s.fg3PctRank).getD 0 }

/-- A raw elo-history point (`{date: string; elo: number}`): `none` as
date models a falsy (empty/absent) date string, which the mapper filters
out before parsing. -/
structure RawEloPoint where
  date : Option ℤ
  elo : RawValue
deriving DecidableEq, Repr

/-- `RawElo` in teamDataLoader.ts. -/
structure RawElo where
  current : RawValue
  history : Option (List RawEloPoint)
deriving DecidableEq, Repr

/-- teamDataLoader.ts `mapEloHistory`: keep the points with a truthy
date, round each elo (defaulting unusable elos to `0`), and stable-sort
ascending by parsed date.  Note: the source never collapses points that
share a date. -/
def mapEloHistory (elo : Option RawElo) : List EloHistoryPoint :=
  match elo with
  | none => []
  | some e =>
    match e.history with
    | none => []
    | some points =>
      ((points.filter (fun p => p.date.isSome)).map
        (fun p => EloHistoryPoint.mk (p.date.getD 0)
          (((roundNumber p.elo).getD 0 : ℤ) : ℚ))).insertionSort
        (fun a b => a.date ≤ b.date)

/-- teamDataLoader.ts `ensureHistory`: an empty series is replaced by a
single synthesized point at the current elo, dated "today" (the wall
clock read is threaded in as the explicit `today` argument). -/
def ensureHistory (history : List EloHistoryPoint) (elo : ℚ) (today : ℤ) :
    List EloHistoryPoint :=
  if 0 < history.length then history else [⟨today, elo⟩]

/-- Raw per-game record (`RawGame`), restricted to the fields the
normalized `GameHistory` needs for the rating-window engine. -/
structure RawGame where
  date : Option ℤ
  eloChange : RawValue
deriving DecidableEq, Repr

/-- teamDataLoader.ts `mapGameHistory`: stable-sort descending by date
and round each elo change (defaulting unusable changes to `0`).  String
presentation fields (opponent name, score, result) are omitted from the
model. -/
def mapGameHistory (games : Option (List RawGame)) : List GameHistory :=
  match games with
  | none => []
  | some gs =>
    (gs.insertionSort (fun a b => b.date.getD 0 ≤ a.date.getD 0)).map
      (fun g => GameHistory.mk (((roundNumber g.eloChange).getD 0 : ℤ) : ℚ)
        g.date)

/-- types.ts `TeamCategoryRatings`. -/
structure TeamCategoryRatings where
  offense : ℚ
  defense : ℚ
  pacePressure : ℚ
  hustle : ℚ
  clutch : ℚ
deriving DecidableEq, Repr

/-- Raw category ratings: five possibly-unusable numeric fields. -/
structure RawCategoryRatings where
  offense : RawValue
  defense : RawValue
  pacePressure : RawValue
  hustle : RawValue
  clutch : RawValue
deriving DecidableEq, Repr

/-- teamDataLoader.ts `normalizeCategories`. -/
def normalizeCategories : Option RawCategoryRatings →
    Option TeamCategoryRatings
  | none => none
  | some r => some
    { offense := (((roundNumber r.offense).getD 0 : ℤ) : ℚ)
      defense := (((roundNumber r.defense).getD 0 : ℤ) : ℚ)
      pacePressure := (((roundNumber r.pacePressure).getD 0 : ℤ) : ℚ)
      hustle := (((roundNumber r.hustle).getD 0 : ℤ) : ℚ)
      clutch := (((roundNumber r.clutch).getD 0 : ℤ) : ℚ) }

/-- `RawTeam` in teamDataLoader.ts, restricted to the fields that feed
the normalized (non-presentational) team fields. -/
structure RawTeam where
  teamId : Option ℤ
  seed : Option ℚ
  record : Option (List Char)
  categoryRatings : Option RawCategoryRatings
  teamStats : Option RawTeamStats
  elo : Option RawElo
  games : Option (List RawGame)
deriving DecidableEq, Repr

/-- types.ts `Team`, restricted to the engine-relevant fields (the
presentation-only string fields name, abbreviation, logoColor, conference
label, season tags are omitted). -/
structure Team where
  id : ℤ
  seed : Option ℚ
  elo : ℚ
  eloChangeLast5 : ℤ
  eloHistory : List EloHistoryPoint
  gameHistory : List GameHistory
  record : Option TeamRecord
  teamStats : Option TeamStats
  categoryRatings : Option TeamCategoryRatings
deriving DecidableEq, Repr

/-- teamDataLoader.ts `mapTeam` (engine-relevant fields).  The wall-clock
date used by the `ensureHistory` synthesis is the explicit `today`
argument. -/
def mapTeam (raw : RawTeam) (index : ℤ) (today : ℤ) : Team :=
  let history := ensureHistory (mapEloHistory raw.elo)
    (((roundNumber ((raw.elo.map RawElo.current).getD .missing)).getD 0 : ℤ) : ℚ)
    today
  let elo : ℚ :=
    match roundNumber ((raw.elo.map RawElo.current).getD .missing) with
    | some z => (z : ℚ)
    | none => ((history.get? (history.length - 1)).map (·.elo)).getD 0
  let gameHistory := mapGameHistory raw.games
  { id := raw.teamId.getD index
    seed := raw.seed
    elo := elo
    eloChangeLast5 := computeEloChangeLastN history gameHistory 5
    eloHistory := history
    gameHistory := gameHistory
    record := parseRecord raw.record raw.seed
    teamStats := mapTeamStats raw.teamStats
    categoryRatings := normalizeCategories raw.categoryRatings }

/-- The week/month/season toggle of the chart views. -/
inductive TimeRange where
  | week
  | month
  | season
deriving DecidableEq, Repr

/-- Number of trailing days of a non-season range (7 for week, 30 for
month). -/
def rangeDays : TimeRange → ℤ
  | .week => 7
  | .month => 30
  | .season => 0

/-- The latest date present in a list of history points
(`Math.max(...history.map(p => new Date(p.date).getTime()))`). -/
def latestDate (ps : List EloHistoryPoint) : ℤ :=
  ((ps.map (·.date)).max?).getD 0

/-- TeamDetail.tsx `filteredEloHistory`: season shows the whole series;
week/month keep the points dated within the trailing window that ends at
the latest date present in this team's own history. -/
def filteredEloHistory (history : List EloHistoryPoint) (r : TimeRange) :
    List EloHistoryPoint :=
  if history.length = 0 then []
  else
    match r with
    | .season => history
    | _ =>
      let latest := latestDate history
      let cutoff := latest - rangeDays r + 1
      history.filter (fun p => cutoff ≤ p.date ∧ p.date ≤ latest)

/-- TeamComparisonEloChart.tsx `chartData`, reduced to its date spine:
the deduplicated, ascending-sorted dates drawn from every team's history,
window-filtered (for week/month) relative to the latest date across all
teams' histories.  The per-team row values are a lookup per date and are
omitted from the model. -/
def chartDates (teams : List Team) (r : TimeRange) : List ℤ :=
  if teams.length = 0 then []
  else
    let allHistories : List EloHistoryPoint := teams.flatMap Team.eloHistory
    if allHistories.length = 0 then []
    else
      let latest := latestDate allHistories
      let collected : List ℤ :=
        match r with
        | .season => allHistories.map (·.date)
        | _ =>
          let cutoff := latest - rangeDays r + 1
          (allHistories.filter
            (fun p => cutoff ≤ p.date ∧ p.date ≤ latest)).map (·.date)
      collected.dedup.insertionSort (· ≤ ·)

/-- The five team profile categories (`CATEGORY_KEYS` in
TeamDetail.tsx). -/
inductive TeamCategoryKey where
  | offense
  | defense
  | pacePressure
  | hustle
  | clutch
deriving DecidableEq, Repr

/-- Field access `ratings[key]` for a team category key. -/
def catGet (k : TeamCategoryKey) (c : TeamCategoryRatings) : ℚ :=
  match k with
  | .offense => c.offense
  | .defense => c.defense
  | .pacePressure => c.pacePressure
  | .hustle => c.hustle
  | .clutch => c.clutch

/-- The optional metric `t.categoryRatings?.[key]` of a team. -/
def catMetric (k : TeamCategoryKey) (t : Team) : Option ℚ :=
  t.categoryRatings.map (catGet k)

/-- JavaScript `Array.prototype.findIndex`, with `-1` mapped to `none`. -/
def findIndex (p : α → Bool) : List α → Option ℕ
  | [] => none
  | x :: xs => if p x then some 0 else (findIndex p xs).map (· + 1)

/-- The sorted cohort built inside TeamDetail.tsx `categoryRanks`: the
teams that have the category metric, stable-sorted descending by it. -/
def sortedCohort (teams : List Team) (k : TeamCategoryKey) : List Team :=
  (teams.filter (fun t => (catMetric k t).isSome)).insertionSort
    (fun a b => (catMetric k b).getD 0 ≤ (catMetric k a).getD 0)

/-- TeamDetail.tsx `categoryRanks` for one team id: 1-based position of
the team in the sorted cohort, or no entry when it is not found there. -/
def categoryRank (teams : List Team) (k : TeamCategoryKey) (tid : ℤ) :
    Option ℕ :=
  (findIndex (fun t => decide (t.id = tid)) (sortedCohort teams k)).map (· + 1)

/-- The sorted list built inside mockData `rankTeams`: teams that carry a
stats record, stable-sorted by the selected stat in the requested
direction (missing stats read as `0` by the comparator, which the filter
makes unreachable). -/
def sortedByStat (teams : List Team) (f : TeamStats → ℚ)
    (ascending : Bool) : List Team :=
  (teams.filter (fun t => t.teamStats.isSome)).insertionSort
    (fun a b =>
      if ascending then (a.teamStats.map f).getD 0 ≤ (b.teamStats.map f).getD 0
      else (b.teamStats.map f).getD 0 ≤ (a.teamStats.map f).getD 0)

/-- 1-based rank assignment over a list (`sorted.forEach((team, idx) =>
rank = idx + 1)`), rendered as an id-to-rank association list. -/
def assignRanks (start : ℕ) : List Team → List (ℤ × ℕ)
  | [] => []
  | t :: ts => (t.id, start + 1) :: assignRanks (start + 1) ts

/-- mockData `rankTeams` as a pure function: the id-to-rank entries it
writes into the ranked teams' stats records.  A team filtered out (no
stats record) gets no entry. -/
def rankTeams (teams : List Team) (f : TeamStats → ℚ)
    (ascending : Bool) : List (ℤ × ℕ) :=
  assignRanks 0 (sortedByStat teams f ascending)

/-- types.ts `PlayerSkills`. -/
structure PlayerSkills where
  shooting : ℚ
  defense : ℚ
  playmaking : ℚ
  athleticism : ℚ
  rebounding : ℚ
deriving DecidableEq, Repr

/-- The skill attribute keys usable as category fallbacks. -/
inductive SkillKey where
  | shooting
  | defense
  | playmaking
  | athleticism
  | rebounding
deriving DecidableEq, Repr

/-- Field access for a skill key. -/
def skillGet (k : SkillKey) (s : PlayerSkills) : ℚ :=
  match k with
  | .shooting => s.shooting
  | .defense => s.defense
  | .playmaking => s.playmaking
  | .athleticism => s.athleticism
  | .rebounding => s.rebounding

/-- The six per-category rating keys
(types.ts `PlayerRatingsPerCategory`). -/
inductive PlayerCategoryKey where
  | sco
  | ply
  | reb
  | dfn
  | hst
  | imp
deriving DecidableEq, Repr

/-- types.ts `PlayerRatingsPerCategory`: each value optional and possibly
unusable (`number | null`, with non-finite numbers also mapping to
`none`). -/
structure PlayerRatingsPerCategory where
  sco : Option ℚ
  ply : Option ℚ
  reb : Option ℚ
  dfn : Option ℚ
  hst : Option ℚ
  imp : Option ℚ
deriving DecidableEq, Repr

/-- The record with every category absent (`?? \x7b\x7d` default). -/
def emptyPerCategory : PlayerRatingsPerCategory :=
  ⟨none, none, none, none, none, none⟩

/-- Field access `perCategory[config.key]`. -/
def perCategoryGet (k : PlayerCategoryKey) (c : PlayerRatingsPerCategory) :
    Option ℚ :=
  match k with
  | .sco => c.sco
  | .ply => c.ply
  | .reb => c.reb
  | .dfn => c.dfn
  | .hst => c.hst
  | .imp => c.imp

/-- The part of `PlayerDataRecord` the category engine reads:
`detail.ratings.perCategory`. -/
structure PlayerDetail where
  perCategory : PlayerRatingsPerCategory
deriving DecidableEq, Repr

/-- types.ts `Player`, restricted to what `getPlayerCategoryRatings`
reads; `skills` is optional because the source guards it with optional
chaining. -/
structure Player where
  rating : ℚ
  skills : Option PlayerSkills
  detail : Option PlayerDetail
deriving DecidableEq, Repr

/-- `player.detail?.ratings?.perCategory ?? \x7b\x7d`. -/
def perCategoryOf (p : Player) : PlayerRatingsPerCategory :=
  (p.detail.map PlayerDetail.perCategory).getD emptyPerCategory

/-- One entry of `CATEGORY_CONFIG` (labels omitted). -/
structure CategoryConfig where
  key : PlayerCategoryKey
  fallbackSkill : Option SkillKey
  fallbackToRating : Bool
deriving DecidableEq, Repr

/-- The `CATEGORY_CONFIG` table of the player category rating helper. -/
def CATEGORY_CONFIG : List CategoryConfig :=
  [⟨.sco, some .shooting, false⟩,
   ⟨.ply, some .playmaking, false⟩,
   ⟨.reb, some .rebounding, false⟩,
   ⟨.dfn, some .defense, false⟩,
   ⟨.hst, some .athleticism, false⟩,
   ⟨.imp, none, true⟩]

/-- `sanitizeRating`: a usable number is rounded and clamped to
`[1, 99]`; anything else yields the supplied fallback (the source
defaults the fallback parameter to `60`). -/
def sanitizeRating (value : Option ℚ) (fallback : ℤ) : ℤ :=
  match value with
  | some v => max 1 (min 99 (jsRound v))
  | none => fallback

/-- The fallback signal of a category:
`config.fallbackToRating ? player.rating :
player.skills?.[config.fallbackSkill]`. -/
def fallbackValue (p : Player) (cfg : CategoryConfig) : Option ℚ :=
  if cfg.fallbackToRating then some p.rating
  else cfg.fallbackSkill.bind (fun k => p.skills.map (skillGet k))

/-- The value computed for one `CATEGORY_CONFIG` entry:
`sanitizeRating(perCategoryValue, sanitizeRating(fallback))`. -/
def categoryValue (p : Player) (cfg : CategoryConfig) : ℤ :=
  sanitizeRating (perCategoryGet cfg.key (perCategoryOf p))
    (sanitizeRating (fallbackValue p cfg) 60)

/-- One output entry of `getPlayerCategoryRatings`. -/
structure CategoryRatingEntry where
  key : PlayerCategoryKey
  value : ℤ
deriving DecidableEq, Repr

/-- `getPlayerCategoryRatings` from the player category rating helper. -/
def getPlayerCategoryRatings (p : Player) : List CategoryRatingEntry :=
  CATEGORY_CONFIG.map (fun cfg => ⟨cfg.key, categoryValue p cfg⟩)

/-! ### Shared helper lemmas -/

/-- Insertion sort by a totally ordered key produces a sorted list. -/
theorem sorted_insertionSort_of_key {α : Type} (r : α → α → Prop)
    [DecidableRel r] (htot : ∀ a b, r a b ∨ r b a)
    (htrans : ∀ a b c, r a b → r b c → r a c) (l : List α) :
    List.Sorted r (l.insertionSort r) := by
  haveI : IsTotal α r := ⟨htot⟩
  haveI : IsTrans α r := ⟨fun a b c => htrans a b c⟩
  exact List.sorted_insertionSort r l

/-- `List.get? 0` is the head. -/
theorem get?_zero_eq_head? {α : Type} (l : List α) : l.get? 0 = l.head? := by
  cases l <;> rfl

/-! ### C1, C2, C10: the rating-window engine -/

/-- C1: with an empty game log, `computeEloChangeLastN` follows the
history-series strategy: an empty history gives 0; a history with `n` or
fewer points gives the rounded difference between the last and the first
value; a longer history gives the rounded difference between the last
value and the value at index `length - n - 1`. -/
theorem trailingDelta_history_spec (history : List EloHistoryPoint)
    (n : ℕ) :
    computeEloChangeLastN [] [] n = 0
    ∧ (history ≠ [] → history.length ≤ n →
        computeEloChangeLastN history [] n =
          jsRound ((history.getLast?.map (·.elo)).getD 0
            - (history.head?.map (·.elo)).getD 0))
    ∧ (∀ h : n < history.length,
        computeEloChangeLastN history [] n =
          jsRound ((history.getLast?.map (·.elo)).getD 0
            - (history.get ⟨history.length - n - 1, by omega⟩).elo)) := by
  have h0 : ¬ (0 < ([] : List GameHistory).length) := by simp
  refine ⟨by simp [computeEloChangeLastN], ?_, ?_⟩
  · intro hne hlen
    have hlz : ¬ (history.length = 0) := by
      simpa [List.length_eq_zero] using hne
    simp only [computeEloChangeLastN, if_neg h0, if_neg hlz, if_pos hlen]
    rw [List.getLast?_eq_get?, get?_zero_eq_head?]
  · intro h
    have hlz : ¬ (history.length = 0) := by omega
    have hlen : ¬ (history.length ≤ n) := by omega
    have hidx : history.length - n - 1 < history.length := by omega
    simp only [computeEloChangeLastN, if_neg h0, if_neg hlz, if_neg hlen]
    rw [List.get?_eq_get hidx, List.getLast?_eq_get?]
    rfl

/-- C1 witness: the spec scenario, an entity with rating history
`[1500, 1510, 1490, 1520, 1530]` and no game log: a window of 5 gives
`30` and a window of 2 gives `40`. -/
theorem trailingDelta_history_spec_witness :
    computeEloChangeLastN
      [⟨1, 1500⟩, ⟨2, 1510⟩, ⟨3, 1490⟩, ⟨4, 1520⟩, ⟨5, 1530⟩] [] 5 = 30
    ∧ computeEloChangeLastN
      [⟨1, 1500⟩, ⟨2, 1510⟩, ⟨3, 1490⟩, ⟨4, 1520⟩, ⟨5, 1530⟩] [] 2 = 40 := by
  constructor
  · have h := (trailingDelta_history_spec
      [⟨1, 1500⟩, ⟨2, 1510⟩, ⟨3, 1490⟩, ⟨4, 1520⟩, ⟨5, 1530⟩] 5).2.1
      (by decide) (by decide)
    rw [h]; with_unfolding_all decide
  · have h := (trailingDelta_history_spec
      [⟨1, 1500⟩, ⟨2, 1510⟩, ⟨3, 1490⟩, ⟨4, 1520⟩, ⟨5, 1530⟩] 2).2.2
      (by decide)
    rw [h]; with_unfolding_all decide

/-- C2: with a non-empty game log, `computeEloChangeLastN` sorts the
games stably by date descending, takes the first `n`, sums their rating
deltas and rounds the sum; the sorted list is a permutation of the games
and is sorted descending by date. -/
theorem trailingDelta_gameLog_spec (history : List EloHistoryPoint)
    (games : List GameHistory) (n : ℕ) (hne : games ≠ []) :
    computeEloChangeLastN history games n =
      jsRound (((sortGamesByDateDesc games).take n).foldl
        (fun acc g => acc + g.eloChange) 0)
    ∧ (sortGamesByDateDesc games).Perm games
    ∧ List.Sorted (fun a b => gameDateKey b ≤ gameDateKey a)
        (sortGamesByDateDesc games) := by
  have hp : 0 < games.length := List.length_pos.mpr hne
  refine ⟨?_, List.perm_insertionSort _ _, ?_⟩
  · simp only [computeEloChangeLastN, if_pos hp]
  · exact sorted_insertionSort_of_key _
      (fun a b => le_total (gameDateKey b) (gameDateKey a))
      (fun a b c hab hbc => le_trans hbc hab) _

/-- C2 witness: two games with deltas `3.4` (older) and `-1.2` (newer);
a window of 1 keeps only the newer game and rounds `-1.2` to `-1`. -/
theorem trailingDelta_gameLog_spec_witness :
    computeEloChangeLastN [] [⟨3.4, some 1⟩, ⟨-1.2, some 2⟩] 1 = -1 := by
  have h := (trailingDelta_gameLog_spec []
    [⟨3.4, some 1⟩, ⟨-1.2, some 2⟩] 1 (by decide)).1
  rw [h]; with_unfolding_all decide

/-- C10: whenever the game log is non-empty, the trailing delta is a
function of the game log and the window size only; the rating-history
argument has no influence. -/
theorem trailingDelta_gameLog_ignores_history
    (h1 h2 : List EloHistoryPoint) (games : List GameHistory) (n : ℕ)
    (hne : games ≠ []) :
    computeEloChangeLastN h1 games n = computeEloChangeLastN h2 games n := by
  have hp : 0 < games.length := List.length_pos.mpr hne
  simp only [computeEloChangeLastN, if_pos hp]

/-- C10 witness: a five-point history and an empty history give the same
delta for the same one-game log, even though the window exceeds the log
size. -/
theorem trailingDelta_gameLog_ignores_history_witness :
    computeEloChangeLastN
      [⟨1, 1500⟩, ⟨2, 1510⟩, ⟨3, 1490⟩, ⟨4, 1520⟩, ⟨5, 1530⟩]
      [⟨12, some 9⟩] 5
    = computeEloChangeLastN [] [⟨12, some 9⟩] 5 :=
  trailingDelta_gameLog_ignores_history
    [⟨1, 1500⟩, ⟨2, 1510⟩, ⟨3, 1490⟩, ⟨4, 1520⟩, ⟨5, 1530⟩] []
    [⟨12, some 9⟩] 5 (by decide)

/-! ### C4, C6, C7, C8: the record normalizer -/

/-- `ensureHistory` always yields at least one point. -/
theorem ensureHistory_length_pos (h : List EloHistoryPoint) (e : ℚ)
    (t : ℤ) : 1 ≤ (ensureHistory h e t).length := by
  unfold ensureHistory
  split
  · omega
  · simp

/-- C4: every normalized team has a rating history of length at least 1;
when the raw series is empty, a single point dated today at the team's
current (rounded, defaulted) rating is synthesized. -/
theorem mapTeam_history_nonempty (raw : RawTeam) (index today : ℤ) :
    1 ≤ (mapTeam raw index today).eloHistory.length
    ∧ (mapEloHistory raw.elo = [] →
        (mapTeam raw index today).eloHistory =
          [⟨today, (((roundNumber
            ((raw.elo.map RawElo.current).getD .missing)).getD 0 : ℤ) : ℚ)⟩]) := by
  constructor
  · have h := ensureHistory_length_pos (mapEloHistory raw.elo)
      (((roundNumber ((raw.elo.map RawElo.current).getD .missing)).getD 0 : ℤ) : ℚ)
      today
    simpa [mapTeam] using h
  · intro hempty
    simp [mapTeam, ensureHistory, hempty]

/-- C4 witness: a raw team with no elo data at all is normalized to a
one-point history at rating 0, dated by the synthesis date. -/
theorem mapTeam_history_nonempty_witness :
    1 ≤ (mapTeam ⟨none, none, none, none, none, none, none⟩
      4 999).eloHistory.length
    ∧ (mapTeam ⟨none, none, none, none, none, none, none⟩
      4 999).eloHistory = [⟨999, 0⟩] :=
  ⟨(mapTeam_history_nonempty ⟨none, none, none, none, none, none, none⟩
      4 999).1,
   (mapTeam_history_nonempty ⟨none, none, none, none, none, none, none⟩
      4 999).2 rfl⟩

/-- C6 (amended): the numeric utilities never fabricate values: `asNumber`
succeeds exactly on inputs that carried that finite number, and
`roundNumber` is its rounding; however, `mapTeamStats` does default every
missing numeric field of a present raw stats record to `0`. -/
theorem asNumber_no_fabrication :
    (∀ v q, asNumber v = some q ↔
      (v = RawValue.num q ∨ v = RawValue.str (some q)))
    ∧ (∀ v z, roundNumber v = some z ↔
      ∃ q, asNumber v = some q ∧ z = jsRound q)
    ∧ (∀ s, mapTeamStats (some s) = some
      { offRating := (asNumber s.offRating).getD 0
        offRatingRank := (roundNumber s.offRatingRank).getD 0
        defRating := (asNumber s.defRating).getD 0
        defRatingRank := (roundNumber s.defRatingRank).getD 0
        netRating := (asNumber s.netRating).getD 0
        netRatingRank := (roundNumber s.netRatingRank).getD 0
        threesPerGame := (asNumber s.threesPerGame).getD 0
        threesPerGameRank := (roundNumber s.threesPerGameRank).getD 0
        turnoversPerGame := (asNumber s.turnoversPerGame).getD 0
        turnoversPerGameRank := (roundNumber s.turnoversPerGameRank).getD 0
        plusMinus := (asNumber s.plusMinus).getD 0
        plusMinusRank := (roundNumber s.plusMinusRank).getD 0
        fgPct := (asNumber s.fgPct).getD 0
        fgPctRank := (roundNumber s.fgPctRank).getD 0
        ftPct := (asNumber s.ftPct).getD 0
        ftPctRank := (roundNumber s.ftPctRank).getD 0
        fg3Pct := (asNumber s.fg3Pct).getD 0
        fg3PctRank := (roundNumber s.fg3PctRank).getD 0 }) := by
  refine ⟨?_, ?_, fun s => rfl⟩
  · intro v q
    cases v <;> simp [asNumber]
  · intro v z
    unfold roundNumber
    cases asNumber v <;> simp [eq_comm]

/-- C6 counterexample: the claim that normalized records never substitute
`0` for a missing numeric field fails: a raw stats record whose
`offRating` is unusable (so `asNumber` yields none) is normalized to a
stats record with `offRating = 0`. -/
theorem mapTeamStats_fabricates_zero :
    asNumber RawValue.missing = none
    ∧ (mapTeamStats (some ⟨.missing, .missing, .missing, .missing,
        .missing, .missing, .missing, .missing, .missing, .missing,
        .missing, .missing, .missing, .missing, .missing, .missing,
        .missing, .missing⟩)).map TeamStats.offRating = some 0 :=
  ⟨rfl, rfl⟩

/-- The mapper applied to the points of a raw elo series. -/
def mapEloPoint (p : RawEloPoint) : EloHistoryPoint :=
  ⟨p.date.getD 0, (((roundNumber p.elo).getD 0 : ℤ) : ℚ)⟩

/-- C7 (amended): the normalized rating-point series is stable-sorted
ascending by date, and consists of the truthy-dated raw points with
rounded values; points sharing a date are all kept. -/
theorem mapEloHistory_sorted (elo : Option RawElo) :
    List.Sorted (fun a b => a.date ≤ b.date) (mapEloHistory elo)
    ∧ ∀ e points, elo = some e → e.history = some points →
      (mapEloHistory elo).Perm
        ((points.filter (fun p => p.date.isSome)).map mapEloPoint) := by
  constructor
  · match elo with
    | none => simp [mapEloHistory]
    | some e =>
      match he : e.history with
      | none => simp [mapEloHistory, he]
      | some points =>
        simp only [mapEloHistory, he]
        exact sorted_insertionSort_of_key
          (fun (a b : EloHistoryPoint) => a.date ≤ b.date)
          (fun a b => le_total a.date b.date)
          (fun a b c hab hbc => le_trans hab hbc) _
  · rintro e points rfl hp
    simp only [mapEloHistory, hp]
    exact List.perm_insertionSort _ _

/-- C7 witness: a three-point raw series with one falsy date is filtered,
rounded and sorted ascending. -/
theorem mapEloHistory_sorted_witness :
    List.Sorted (fun a b => a.date ≤ b.date)
      (mapEloHistory (some ⟨.num 1500,
        some [⟨some 9, .num 1510⟩, ⟨none, .num 7⟩, ⟨some 3, .num 1490.4⟩]⟩))
    ∧ (mapEloHistory (some ⟨.num 1500,
        some [⟨some 9, .num 1510⟩, ⟨none, .num 7⟩, ⟨some 3, .num 1490.4⟩]⟩)).Perm
      (([⟨some 9, .num 1510⟩, ⟨none, .num 7⟩,
          (⟨some 3, .num 1490.4⟩ : RawEloPoint)].filter
        (fun p => p.date.isSome)).map mapEloPoint) :=
  ⟨(mapEloHistory_sorted (some ⟨.num 1500,
      some [⟨some 9, .num 1510⟩, ⟨none, .num 7⟩, ⟨some 3, .num 1490.4⟩]⟩)).1,
   (mapEloHistory_sorted (some ⟨.num 1500,
      some [⟨some 9, .num 1510⟩, ⟨none, .num 7⟩, ⟨some 3, .num 1490.4⟩]⟩)).2
    _ _ rfl rfl⟩

set_option maxRecDepth 8000 in
/-- C7 counterexample: the claim that a normalized series has at most one
point per date fails: a raw team whose elo history repeats a date is
normalized to a history that keeps both points. -/
theorem mapEloHistory_duplicate_dates :
    (mapTeam ⟨none, none, none, none, none,
        some ⟨.num 1500, some [⟨some 5, .num 1500⟩, ⟨some 5, .num 1510⟩]⟩,
        none⟩ 0 0).eloHistory = [⟨5, 1500⟩, ⟨5, 1510⟩]
    ∧ ¬ List.Pairwise (fun a b => a.date ≠ b.date)
        (mapTeam ⟨none, none, none, none, none,
          some ⟨.num 1500, some [⟨some 5, .num 1500⟩, ⟨some 5, .num 1510⟩]⟩,
          none⟩ 0 0).eloHistory := by
  with_unfolding_all decide

/-- C8: `parseRecord` parses a string containing two dash-separated
integers into that win-loss record, and falls back, for a non-matching
string with a truthy numeric seed, to the zero-and-zero placeholder
carrying the seed as the rank. -/
theorem parseRecord_spec (raw : List Char) (seed : Option ℚ) :
    (∀ w l, findTwoInts raw = some (w, l) →
      parseRecord (some raw) seed =
        some ⟨w, l, seed.getD 0, seed, some raw⟩)
    ∧ (findTwoInts raw = none → ∀ s, seed = some s → s ≠ 0 →
      parseRecord (some raw) seed = some ⟨0, 0, s, some s, some raw⟩) := by
  constructor
  · intro w l hm
    match raw with
    | [] => simp [findTwoInts] at hm
    | c :: cs =>
      simp only [parseRecord, rawFalsy, hm]
      rfl
  · intro hm s hs hz
    subst hs
    have hst : seedTruthy (some s) = true := by
      simp [seedTruthy, hz]
    match raw with
    | [] =>
      simp only [parseRecord, rawFalsy, hst]
      rfl
    | c :: cs =>
      simp only [parseRecord, rawFalsy, hm, hst]
      rfl

/-- C8 witness: the spec scenarios: the string 48-20 parses to wins 48
and losses 20; an em-dash string with seed 3 produces the placeholder
record with wins 0, losses 0 and seed 3. -/
theorem parseRecord_spec_witness :
    parseRecord (some "48-20".toList) none =
      some ⟨48, 20, 0, none, some "48-20".toList⟩
    ∧ parseRecord (some "—".toList) (some 3) =
      some ⟨0, 0, 3, some 3, some "—".toList⟩ :=
  ⟨(parseRecord_spec "48-20".toList none).1 48 20 (by decide),
   (parseRecord_spec "—".toList (some 3)).2 (by decide) 3 rfl
     (by with_unfolding_all decide)⟩

/-! ### C3: the composite rating engine -/

/-- C3: every category rating is an integer in `[1, 99]`: a present
primary per-category value is rounded and clamped; otherwise the
category-specific fallback signal is rounded and clamped; and when both
are absent the fixed neutral default 60 is returned.  The last conjunct
ties the per-config value to the engine's output list. -/
theorem categoryRating_bounds_and_fallback (p : Player)
    (cfg : CategoryConfig) :
    (1 ≤ categoryValue p cfg ∧ categoryValue p cfg ≤ 99)
    ∧ (∀ q, perCategoryGet cfg.key (perCategoryOf p) = some q →
        categoryValue p cfg = max 1 (min 99 (jsRound q)))
    ∧ (perCategoryGet cfg.key (perCategoryOf p) = none →
        ∀ q, fallbackValue p cfg = some q →
          categoryValue p cfg = max 1 (min 99 (jsRound q)))
    ∧ (perCategoryGet cfg.key (perCategoryOf p) = none →
        fallbackValue p cfg = none → categoryValue p cfg = 60)
    ∧ (cfg ∈ CATEGORY_CONFIG →
        (⟨cfg.key, categoryValue p cfg⟩ : CategoryRatingEntry) ∈
          getPlayerCategoryRatings p) := by
  have hclamp : ∀ z : ℤ, 1 ≤ max 1 (min 99 z) ∧ max 1 (min 99 z) ≤ 99 := by
    intro z
    constructor
    · exact le_max_left 1 (min 99 z)
    · exact max_le (by norm_num) (min_le_left 99 z)
  refine ⟨?_, ?_, ?_, ?_, ?_⟩
  · unfold categoryValue sanitizeRating
    cases hpc : perCategoryGet cfg.key (perCategoryOf p) with
    | some v => exact hclamp (jsRound v)
    | none =>
      cases hfb : fallbackValue p cfg with
      | some q => exact hclamp (jsRound q)
      | none => norm_num
  · intro q hq
    unfold categoryValue sanitizeRating
    rw [hq]
  · intro hn q hq
    unfold categoryValue sanitizeRating
    rw [hn, hq]
  · intro hn hfb
    unfold categoryValue sanitizeRating
    rw [hn, hfb]
  · intro hmem
    exact List.mem_map_of_mem _ hmem

/-- C3 witness: a player with no per-category data and no skills record:
the scoring category falls through the two-tier fallback to the neutral
default 60, which lies in `[1, 99]` and appears in the engine output. -/
theorem categoryRating_bounds_and_fallback_witness :
    (1 ≤ categoryValue ⟨50, none, none⟩ ⟨.sco, some .shooting, false⟩
      ∧ categoryValue ⟨50, none, none⟩ ⟨.sco, some .shooting, false⟩ ≤ 99)
    ∧ categoryValue ⟨50, none, none⟩ ⟨.sco, some .shooting, false⟩ = 60
    ∧ (⟨.sco, 60⟩ : CategoryRatingEntry) ∈
        getPlayerCategoryRatings ⟨50, none, none⟩ := by
  have h := categoryRating_bounds_and_fallback ⟨50, none, none⟩
    ⟨.sco, some .shooting, false⟩
  exact ⟨h.1, h.2.2.2.1 rfl rfl, h.2.2.2.2 (by with_unfolding_all decide)⟩

/-! ### C5: the cohort ranking engine -/

/-- `findIndex` misses when no element satisfies the predicate. -/
theorem findIndex_eq_none_of_all (p : α → Bool) :
    ∀ l : List α, (∀ x ∈ l, p x = false) → findIndex p l = none := by
  intro l
  induction l with
  | nil => intro _; rfl
  | cons a as ih =>
    intro h
    have ha : p a = false := h a (List.mem_cons_self a as)
    simp [findIndex, ha, ih (fun x hx => h x (List.mem_cons_of_mem a hx))]

/-- `findIndex` finds the index of an element that satisfies the
predicate and is preceded only by elements that do not. -/
theorem findIndex_eq_some_of_get (p : α → Bool) :
    ∀ (l : List α) (i : ℕ) (x : α), l.get? i = some x → p x = true →
      (∀ j y, j < i → l.get? j = some y → p y = false) →
      findIndex p l = some i := by
  intro l
  induction l with
  | nil => intro i x h; simp at h
  | cons a as ih =>
    intro i x hget hp hprev
    cases i with
    | zero =>
      have : a = x := by simpa using hget
      subst this
      simp [findIndex, hp]
    | succ j =>
      have ha : p a = false := hprev 0 a (Nat.succ_pos j) rfl
      have htail : findIndex p as = some j :=
        ih j x (by simpa using hget) hp
          (fun j' y hj' hy => hprev (j' + 1) y (by omega) (by simpa using hy))
      simp [findIndex, ha, htail]

/-- Membership in `assignRanks`: exactly the pairs of an element's id and
its 1-based position (shifted by the start index). -/
theorem mem_assignRanks :
    ∀ (l : List Team) (s : ℕ) (p1 : ℤ) (p2 : ℕ),
      (p1, p2) ∈ assignRanks s l ↔
        ∃ i t, l.get? i = some t ∧ t.id = p1 ∧ p2 = s + i + 1 := by
  intro l
  induction l with
  | nil => intro s p1 p2; simp [assignRanks]
  | cons a as ih =>
    intro s p1 p2
    simp only [assignRanks, List.mem_cons, ih (s + 1) p1 p2, Prod.mk.injEq]
    constructor
    · rintro (⟨rfl, rfl⟩ | ⟨i, t, hget, hid2, hr⟩)
      · exact ⟨0, a, rfl, rfl, by omega⟩
      · exact ⟨i + 1, t, by simpa using hget, hid2, by omega⟩
    · rintro ⟨i, t, hget, hid2, hr⟩
      cases i with
      | zero =>
        have hat : a = t := by simpa using hget
        subst hat
        exact Or.inl ⟨hid2.symm, by omega⟩
      | succ j =>
        exact Or.inr ⟨j, t, by simpa using hget, hid2, by omega⟩

/-- C5: the ranking operations.  For `categoryRanks`: the cohort is
exactly the teams carrying the metric, stable-sorted descending, and a
team's rank is its 1-based position there, with no entry for a team
lacking the metric.  For `rankTeams`: the cohort is exactly the teams
carrying a stats record, sorted in the requested direction, each ranked
team gets its 1-based position, and a team without stats gets no entry. -/
theorem ranking_spec (teams : List Team) (k : TeamCategoryKey)
    (f : TeamStats → ℚ) (ascending : Bool)
    (hid : (teams.map Team.id).Nodup) :
    ((sortedCohort teams k).Perm
        (teams.filter (fun t => (catMetric k t).isSome))
    ∧ List.Sorted
        (fun a b => (catMetric k b).getD 0 ≤ (catMetric k a).getD 0)
        (sortedCohort teams k)
    ∧ (∀ t ∈ teams, catMetric k t = none →
        categoryRank teams k t.id = none)
    ∧ (∀ t ∈ teams, (catMetric k t).isSome →
        ∃ i : Fin (sortedCohort teams k).length,
          (sortedCohort teams k).get i = t
          ∧ categoryRank teams k t.id = some (i.1 + 1)))
    ∧ ((sortedByStat teams f ascending).Perm
        (teams.filter (fun t => t.teamStats.isSome))
    ∧ List.Sorted
        (fun a b =>
          if ascending then
            (a.teamStats.map f).getD 0 ≤ (b.teamStats.map f).getD 0
          else (b.teamStats.map f).getD 0 ≤ (a.teamStats.map f).getD 0)
        (sortedByStat teams f ascending)
    ∧ (∀ t ∈ teams, t.teamStats = none →
        ∀ r, (t.id, r) ∉ rankTeams teams f ascending)
    ∧ (∀ t ∈ teams, t.teamStats.isSome →
        ∃ i : Fin (sortedByStat teams f ascending).length,
          (sortedByStat teams f ascending).get i = t
          ∧ (t.id, i.1 + 1) ∈ rankTeams teams f ascending)) := by
  have hinj : ∀ a ∈ teams, ∀ b ∈ teams, a.id = b.id → a = b :=
    fun a ha b hb hab => List.inj_on_of_nodup_map hid ha hb hab
  constructor
  · -- categoryRanks
    have hperm : (sortedCohort teams k).Perm
        (teams.filter (fun t => (catMetric k t).isSome)) :=
      List.perm_insertionSort _ _
    have hmemsorted : ∀ u ∈ sortedCohort teams k,
        u ∈ teams ∧ (catMetric k u).isSome = true := by
      intro u hu
      have := hperm.mem_iff.mp hu
      exact List.mem_filter.mp this
    refine ⟨hperm, ?_, ?_, ?_⟩
    · exact sorted_insertionSort_of_key
        (fun (a b : Team) => (catMetric k b).getD 0 ≤ (catMetric k a).getD 0)
        (fun a b => le_total ((catMetric k b).getD 0) ((catMetric k a).getD 0))
        (fun a b c hab hbc => le_trans hbc hab) _
    · intro t ht htn
      have hall : ∀ u ∈ sortedCohort teams k,
          (fun u => decide (u.id = t.id)) u = false := by
        intro u hu
        obtain ⟨hut, hus⟩ := hmemsorted u hu
        refine decide_eq_false ?_
        intro heq
        have : u = t := hinj u hut t ht heq
        subst this
        rw [htn] at hus
        simp at hus
      unfold categoryRank
      rw [findIndex_eq_none_of_all _ _ hall]
      rfl
    · intro t ht hts
      have htf : t ∈ teams.filter (fun t => (catMetric k t).isSome) :=
        List.mem_filter.mpr ⟨ht, hts⟩
      have htin : t ∈ sortedCohort teams k := hperm.mem_iff.mpr htf
      obtain ⟨i, hi⟩ := List.mem_iff_get.mp htin
      have hidnodup : ((sortedCohort teams k).map Team.id).Nodup := by
        have hsub : List.Sublist
            (teams.filter (fun t => (catMetric k t).isSome)) teams :=
          List.filter_sublist teams
        exact ((hperm.map Team.id).nodup_iff).mpr
          (List.Nodup.sublist (hsub.map Team.id) hid)
      have hnodup : (sortedCohort teams k).Nodup := hidnodup.of_map
      refine ⟨i, hi, ?_⟩
      have hfind : findIndex (fun u => decide (u.id = t.id))
          (sortedCohort teams k) = some i.1 := by
        refine findIndex_eq_some_of_get _ _ i.1 t ?_ (by simp) ?_
        · rw [List.get?_eq_get i.2, hi]
        · intro j y hj hy
          refine decide_eq_false ?_
          intro heq
          obtain ⟨hjlt, hyget⟩ := List.get?_eq_some.mp hy
          have hyin : y ∈ sortedCohort teams k := List.get?_mem hy
          obtain ⟨hyt, _⟩ := hmemsorted y hyin
          have : y = t := hinj y hyt t ht heq
          subst this
          have : (⟨j, hjlt⟩ : Fin (sortedCohort teams k).length) = i :=
            (List.Nodup.get_inj_iff hnodup).mp (hyget.trans hi.symm)
          have : j = i.1 := congrArg Fin.val this
          omega
      unfold categoryRank
      rw [hfind]
      rfl
  · -- rankTeams
    have hperm : (sortedByStat teams f ascending).Perm
        (teams.filter (fun t => t.teamStats.isSome)) :=
      List.perm_insertionSort _ _
    have hmemsorted : ∀ u ∈ sortedByStat teams f ascending,
        u ∈ teams ∧ u.teamStats.isSome = true := by
      intro u hu
      exact List.mem_filter.mp (hperm.mem_iff.mp hu)
    refine ⟨hperm, ?_, ?_, ?_⟩
    · refine sorted_insertionSort_of_key _ ?_ ?_ _
      · intro a b
        split_ifs <;> exact le_total _ _
      · intro a b c hab hbc
        split_ifs at hab hbc ⊢
        · exact le_trans hab hbc
        · exact le_trans hbc hab
    · intro t ht htn r hmem
      obtain ⟨i, u, hget, huid, _⟩ :=
        (mem_assignRanks (sortedByStat teams f ascending) 0 t.id r).mp hmem
      have huin : u ∈ sortedByStat teams f ascending := List.get?_mem hget
      obtain ⟨hut, hus⟩ := hmemsorted u huin
      have : u = t := hinj u hut t ht huid
      subst this
      rw [htn] at hus
      simp at hus
    · intro t ht hts
      have htin : t ∈ sortedByStat teams f ascending :=
        hperm.mem_iff.mpr (List.mem_filter.mpr ⟨ht, hts⟩)
      obtain ⟨i, hi⟩ := List.mem_iff_get.mp htin
      refine ⟨i, hi, ?_⟩
      refine (mem_assignRanks (sortedByStat teams f ascending) 0
        t.id (i.1 + 1)).mpr ⟨i.1, t, ?_, rfl, by omega⟩
      rw [List.get?_eq_get i.2, hi]

/-- C5 witness: the spec scenario: cohort of a team with offensive
rating 115.2, one with 110, and one with no ratings record, ranked
descending: ranks 1 and 2, and no entry for the third. -/
theorem ranking_spec_witness :
    categoryRank
      [⟨2, none, 0, 0, [], [], none, none, some ⟨110, 0, 0, 0, 0⟩⟩,
       ⟨1, none, 0, 0, [], [], none, none, some ⟨115.2, 0, 0, 0, 0⟩⟩,
       ⟨3, none, 0, 0, [], [], none, none, none⟩] .offense 1 = some 1
    ∧ categoryRank
      [⟨2, none, 0, 0, [], [], none, none, some ⟨110, 0, 0, 0, 0⟩⟩,
       ⟨1, none, 0, 0, [], [], none, none, some ⟨115.2, 0, 0, 0, 0⟩⟩,
       ⟨3, none, 0, 0, [], [], none, none, none⟩] .offense 2 = some 2
    ∧ categoryRank
      [⟨2, none, 0, 0, [], [], none, none, some ⟨110, 0, 0, 0, 0⟩⟩,
       ⟨1, none, 0, 0, [], [], none, none, some ⟨115.2, 0, 0, 0, 0⟩⟩,
       ⟨3, none, 0, 0, [], [], none, none, none⟩] .offense 3 = none := by
  refine ⟨by with_unfolding_all decide, by with_unfolding_all decide, ?_⟩
  exact (ranking_spec
    [⟨2, none, 0, 0, [], [], none, none, some ⟨110, 0, 0, 0, 0⟩⟩,
     ⟨1, none, 0, 0, [], [], none, none, some ⟨115.2, 0, 0, 0, 0⟩⟩,
     ⟨3, none, 0, 0, [], [], none, none, none⟩] .offense
    TeamStats.offRating true (by with_unfolding_all decide)).1.2.2.1
    ⟨3, none, 0, 0, [], [], none, none, none⟩
    (by with_unfolding_all decide) rfl

/-! ### C9: trailing windows anchored at the latest date in the data -/

/-- `latestDate` of a non-empty series is attained by a point and bounds
every point's date. -/
theorem latestDate_spec (ps : List EloHistoryPoint) (hne : ps ≠ []) :
    (∃ p ∈ ps, p.date = latestDate ps)
    ∧ ∀ p ∈ ps, p.date ≤ latestDate ps := by
  have hmapne : (ps.map (·.date)) ≠ [] := by simpa using hne
  cases hm : (ps.map (·.date)).max? with
  | none => exact absurd (List.max?_eq_none_iff.mp hm) hmapne
  | some b =>
    haveI : Std.Antisymm (α := ℤ) (· ≤ ·) := ⟨fun h1 h2 => le_antisymm h1 h2⟩
    have hlat : latestDate ps = b := by simp [latestDate, hm]
    have hm' := hm
    rw [List.max?_eq_some_iff] at hm'
    · obtain ⟨hbmem, hble⟩ := hm'
      obtain ⟨p, hp, hpd⟩ := List.mem_map.mp hbmem
      refine ⟨⟨p, hp, by rw [hpd, hlat]⟩, ?_⟩
      intro q hq
      rw [hlat]
      exact hble q.date (List.mem_map_of_mem _ hq)
    all_goals simp [le_total, max_le_iff]

/-- C9: for week and month windows, both the per-team history filter and
the cross-team comparison date spine keep exactly the dates inside the
trailing window that ends at the latest date present in the respective
data (the team's own history, resp. all teams' histories); the anchor is
the maximum date present in the data, so the result never depends on the
caller's clock. -/
theorem windowing_spec :
    (∀ (history : List EloHistoryPoint) (r : TimeRange), history ≠ [] →
      r ≠ TimeRange.season →
      ((∀ p, p ∈ filteredEloHistory history r ↔
          p ∈ history
          ∧ latestDate history - rangeDays r + 1 ≤ p.date
          ∧ p.date ≤ latestDate history)
        ∧ (∃ p ∈ history, p.date = latestDate history)
        ∧ (∀ p ∈ history, p.date ≤ latestDate history)))
    ∧ (∀ (teams : List Team) (r : TimeRange),
        teams.flatMap Team.eloHistory ≠ [] → r ≠ TimeRange.season →
        ((∀ d, d ∈ chartDates teams r ↔
            (∃ p ∈ teams.flatMap Team.eloHistory, p.date = d)
            ∧ latestDate (teams.flatMap Team.eloHistory) - rangeDays r + 1 ≤ d
            ∧ d ≤ latestDate (teams.flatMap Team.eloHistory))
          ∧ (∃ p ∈ teams.flatMap Team.eloHistory,
              p.date = latestDate (teams.flatMap Team.eloHistory))
          ∧ (∀ p ∈ teams.flatMap Team.eloHistory,
              p.date ≤ latestDate (teams.flatMap Team.eloHistory)))) := by
  constructor
  · intro history r hne hr
    have hlen : ¬ history.length = 0 := by
      simpa [List.length_eq_zero] using hne
    refine ⟨?_, (latestDate_spec history hne).1, (latestDate_spec history hne).2⟩
    intro p
    cases r with
    | season => exact absurd rfl hr
    | week =>
      simp only [filteredEloHistory, if_neg hlen, rangeDays]
      simp [List.mem_filter, and_assoc]
    | month =>
      simp only [filteredEloHistory, if_neg hlen, rangeDays]
      simp [List.mem_filter, and_assoc]
  · intro teams r hne hr
    have hteams : ¬ teams.length = 0 := by
      intro h
      rw [List.length_eq_zero] at h
      subst h
      simp at hne
    have hlen : ¬ (teams.flatMap Team.eloHistory).length = 0 := by
      intro h
      exact hne (List.length_eq_zero.mp h)
    refine ⟨?_, (latestDate_spec _ hne).1, (latestDate_spec _ hne).2⟩
    intro d
    cases r with
    | season => exact absurd rfl hr
    | week =>
      simp only [chartDates, if_neg hteams, if_neg hlen, rangeDays]
      rw [List.mem_insertionSort, List.mem_dedup]
      constructor
      · intro hd
        simp only [List.mem_map, List.mem_filter, decide_eq_true_eq] at hd
        obtain ⟨p, ⟨hp, hc1, hc2⟩, rfl⟩ := hd
        exact ⟨⟨p, hp, rfl⟩, hc1, hc2⟩
      · rintro ⟨⟨p, hp, rfl⟩, hc1, hc2⟩
        simp only [List.mem_map, List.mem_filter, decide_eq_true_eq]
        exact ⟨p, ⟨hp, hc1, hc2⟩, rfl⟩
    | month =>
      simp only [chartDates, if_neg hteams, if_neg hlen, rangeDays]
      rw [List.mem_insertionSort, List.mem_dedup]
      constructor
      · intro hd
        simp only [List.mem_map, List.mem_filter, decide_eq_true_eq] at hd
        obtain ⟨p, ⟨hp, hc1, hc2⟩, rfl⟩ := hd
        exact ⟨⟨p, hp, rfl⟩, hc1, hc2⟩
      · rintro ⟨⟨p, hp, rfl⟩, hc1, hc2⟩
        simp only [List.mem_map, List.mem_filter, decide_eq_true_eq]
        exact ⟨p, ⟨hp, hc1, hc2⟩, rfl⟩

set_option maxRecDepth 16000 in
/-- C9 witness: a history with dates 10, 40, 39: the week window keeps
the dates 34..40 regardless of the wall clock; the comparison spine over
two teams anchors at the global maximum 40 and keeps 35, 39, 40. -/
theorem windowing_spec_witness :
    filteredEloHistory [⟨10, 1500⟩, ⟨40, 1510⟩, ⟨39, 1505⟩] .week
      = [⟨40, 1510⟩, ⟨39, 1505⟩]
    ∧ chartDates
        [⟨1, none, 0, 0, [⟨10, 1500⟩, ⟨40, 1510⟩, ⟨39, 1505⟩], [],
           none, none, none⟩,
         ⟨2, none, 0, 0, [⟨5, 1400⟩, ⟨35, 1410⟩], [], none, none, none⟩]
        .week = [35, 39, 40]
    ∧ ((⟨10, 1500⟩ : EloHistoryPoint) ∈
        filteredEloHistory [⟨10, 1500⟩, ⟨40, 1510⟩, ⟨39, 1505⟩] .week ↔
        ((⟨10, 1500⟩ : EloHistoryPoint) ∈
            [(⟨10, 1500⟩ : EloHistoryPoint), ⟨40, 1510⟩, ⟨39, 1505⟩]
          ∧ latestDate [⟨10, 1500⟩, ⟨40, 1510⟩, ⟨39, 1505⟩]
              - rangeDays .week + 1 ≤ (10 : ℤ)
          ∧ (10 : ℤ) ≤ latestDate [⟨10, 1500⟩, ⟨40, 1510⟩, ⟨39, 1505⟩])) := by
  refine ⟨by with_unfolding_all decide, by with_unfolding_all decide, ?_⟩
  exact (windowing_spec.1 [⟨10, 1500⟩, ⟨40, 1510⟩, ⟨39, 1505⟩] .week
    (by with_unfolding_all decide) (by decide)).1 ⟨10, 1500⟩

end NBABrain
